import Mathlib

/-!
Verification of the `normalizer` package of slo-exporter
(src/pkg/normalizer/normalizer.go).

Go strings are modelled as lists of characters (`GoString`), Go slices as
lists, channels as the finite sequences of values sent on them, and the two
external libraries the package uses are modelled as follows:

* `regexp` (compilation): compiled regular expressions are abstract match
  functions `GoString → Bool`; `regexp.Compile` is a parameter
  `compile : GoString → Option (GoString → Bool)` (`none` = compilation
  error, matching Go's `error` return).  `regexp.MustCompile` panicking is
  modelled by `Option` in `replacer.process`.
* `govalidator` / `net.ParseIP` / the two extension regexes: these are
  concrete, closed checkers, so they are implemented faithfully
  (`IsMD5`, `IsSHA1`, `IsSHA256`, `IsNumeric`, `IsHexadecimal`, `IsUUID`,
  `IsUUIDv4`, `IsIP`, `imageExtensionMatch`, `fontExtensionMatch`),
  following the govalidator regex patterns and Go 1.16 `net/ip.go`.
* `path.Clean` is implemented after Go's `path/path.go` lexical cleaning
  algorithm (`pathClean`).
-/

/-- A Go string, modelled as its list of characters. -/
abbrev GoString := List Char

namespace SloExporter

/-! ### strings.Split / strings.Join on a single-character separator -/

/-- Go `strings.Split s (String.singleton sep)`: split at every occurrence
of the separator, keeping empty pieces.  `splitC sep [] = [[]]`, matching
Go's `strings.Split("", sep) = [""]`. -/
def splitC (sep : Char) : GoString → List GoString
  | [] => [[]]
  | c :: rest =>
    if c = sep then [] :: splitC sep rest
    else
      match splitC sep rest with
      | [] => [[c]]
      | r :: rs => (c :: r) :: rs

/-- Go `strings.Join l (String.singleton sep)`. -/
def joinC (sep : Char) : List GoString → GoString
  | [] => []
  | [x] => x
  | x :: y :: rest => x ++ sep :: joinC sep (y :: rest)

/-! ### govalidator checkers

`govalidator.IsMD5 / IsSHA1 / IsSHA256` go through `IsHash`, which matches
the regex `^[a-f0-9]{N}$` with N = 32 / 40 / 64.  `IsNumeric` matches
`^[0-9]+$`, `IsHexadecimal` matches `^[0-9a-fA-F]+$`, `IsUUID` matches
`^[0-9a-f]{8}-[0-9a-f]{4}-[0-9a-f]{4}-[0-9a-f]{4}-[0-9a-f]{12}$` and
`IsUUIDv4` matches
`^[0-9a-f]{8}-[0-9a-f]{4}-4[0-9a-f]{3}-[89ab][0-9a-f]{3}-[0-9a-f]{12}$`. -/

def isDecDigit (c : Char) : Bool := '0' ≤ c && c ≤ '9'

def isLowerHexDigit (c : Char) : Bool :=
  ('0' ≤ c && c ≤ '9') || ('a' ≤ c && c ≤ 'f')

def isAnyHexDigit (c : Char) : Bool :=
  ('0' ≤ c && c ≤ '9') || ('a' ≤ c && c ≤ 'f') || ('A' ≤ c && c ≤ 'F')

/-- govalidator `IsHash` with a given digest length: `^[a-f0-9]{n}$`. -/
def isHashOfLength (n : Nat) (s : GoString) : Bool :=
  s.length == n && s.all isLowerHexDigit

def IsMD5 (s : GoString) : Bool := isHashOfLength 32 s
def IsSHA1 (s : GoString) : Bool := isHashOfLength 40 s
def IsSHA256 (s : GoString) : Bool := isHashOfLength 64 s

/-- govalidator `IsNumeric`: `^[0-9]+$`. -/
def IsNumeric (s : GoString) : Bool := !s.isEmpty && s.all isDecDigit

/-- govalidator `IsHexadecimal`: `^[0-9a-fA-F]+$`. -/
def IsHexadecimal (s : GoString) : Bool := !s.isEmpty && s.all isAnyHexDigit

/-- govalidator `IsUUID`: 8-4-4-4-12 groups of lowercase hex digits
separated by dashes (hex digits can never be the dash itself, so checking
the dash-split pieces is equivalent to the anchored regex). -/
def IsUUID (s : GoString) : Bool :=
  match splitC '-' s with
  | [a, b, c, d, e] =>
    a.length == 8 && b.length == 4 && c.length == 4 && d.length == 4 &&
    e.length == 12 && (a ++ b ++ c ++ d ++ e).all isLowerHexDigit
  | _ => false

/-- govalidator `IsUUIDv4`: as `IsUUID` but the third group starts with
`4` and the fourth group starts with one of `8`, `9`, `a`, `b`. -/
def IsUUIDv4 (s : GoString) : Bool :=
  match splitC '-' s with
  | [a, b, c, d, e] =>
    a.length == 8 && b.length == 4 && c.length == 4 && d.length == 4 &&
    e.length == 12 && (a ++ b ++ c ++ d ++ e).all isLowerHexDigit &&
    c.headI == '4' && (d.headI == '8' || d.headI == '9' ||
      d.headI == 'a' || d.headI == 'b')
  | _ => false

/-! ### net.ParseIP (Go 1.16), used by govalidator.IsIP -/

/-- Go `net.dtoi`: consume leading decimal digits; returns the value, the
unconsumed suffix and an ok flag (false when there is no digit or the
accumulated value reaches `big = 0xFFFFFF`). -/
def dtoi (s : GoString) (n cnt : Nat) : Nat × GoString × Bool :=
  match s with
  | [] => (n, [], cnt != 0)
  | c :: rest =>
    if isDecDigit c then
      let n2 := n * 10 + (c.toNat - '0'.toNat)
      if 0xFFFFFF ≤ n2 then (0, rest, false)
      else dtoi rest n2 (cnt + 1)
    else (n, c :: rest, cnt != 0)

/-- Go `net.xtoi`: as `dtoi` but hexadecimal (both cases accepted). -/
def xtoi (s : GoString) (n cnt : Nat) : Nat × GoString × Bool :=
  match s with
  | [] => (n, [], cnt != 0)
  | c :: rest =>
    if isDecDigit c then
      let n2 := n * 16 + (c.toNat - '0'.toNat)
      if 0xFFFFFF ≤ n2 then (0, rest, false)
      else xtoi rest n2 (cnt + 1)
    else if 'a' ≤ c && c ≤ 'f' then
      let n2 := n * 16 + (c.toNat - 'a'.toNat) + 10
      if 0xFFFFFF ≤ n2 then (0, rest, false)
      else xtoi rest n2 (cnt + 1)
    else if 'A' ≤ c && c ≤ 'F' then
      let n2 := n * 16 + (c.toNat - 'A'.toNat) + 10
      if 0xFFFFFF ≤ n2 then (0, rest, false)
      else xtoi rest n2 (cnt + 1)
    else (n, c :: rest, cnt != 0)

/-- The `k` remaining `.ddd` field groups of a dotted-quad IPv4 literal. -/
def ipv4Tail : Nat → GoString → Bool
  | 0, s => s.isEmpty
  | k + 1, s =>
    match s with
    | '.' :: r =>
      let (n, rest, ok) := dtoi r 0 0
      ok && decide (n ≤ 255) && ipv4Tail k rest
    | _ => false

/-- Go `net.parseIPv4` validity: four dot-separated runs of decimal
digits, each with value at most 255, consuming the whole string. -/
def parseIPv4Valid (s : GoString) : Bool :=
  let (n, rest, ok) := dtoi s 0 0
  ok && decide (n ≤ 255) && ipv4Tail 3 rest

/-- Final acceptance check of Go `net.parseIPv6`: the input must be fully
consumed, and exactly 16 bytes must be determined (an ellipsis is required
iff fewer than 16 bytes were written explicitly). -/
def ipv6Final (i : Nat) (ell : Bool) (s : GoString) : Bool :=
  s.isEmpty && (if i < 16 then ell else !ell)

/-- Main loop of Go `net.parseIPv6` (validity only).  `i` is the number of
bytes filled so far, `ell` whether an ellipsis `::` was seen, `s` the
remaining input.  The fuel only bounds the iteration count: `i` grows by 2
on every recursive call and the loop runs while `i < 16`, so fuel 9 is
never exhausted when starting from `i = 0`. -/
def ipv6Loop : Nat → Nat → Bool → GoString → Bool
  | 0, _, _, _ => false
  | fuel + 1, i, ell, s =>
    let (n, rest, ok) := xtoi s 0 0
    if !ok then false
    else if 0xFFFF < n then false
    else if rest.headI = '.' && !rest.isEmpty then
      -- trailing embedded IPv4 address
      if !ell && !(i == 12) then false
      else if 16 < i + 4 then false
      else if parseIPv4Valid s then ipv6Final (i + 4) ell []
      else false
    else
      match rest with
      | [] => ipv6Final (i + 2) ell []
      | ':' :: r2 =>
        match r2 with
        | [] => false
        | ':' :: r3 =>
          if ell then false
          else if r3.isEmpty then ipv6Final (i + 2) true []
          else if i + 2 < 16 then ipv6Loop fuel (i + 2) true r3
          else ipv6Final (i + 2) true r3
        | _ =>
          if i + 2 < 16 then ipv6Loop fuel (i + 2) ell r2
          else ipv6Final (i + 2) ell r2
      | _ => false

/-- Go `net.parseIPv6` validity, including the leading `::` special case. -/
def parseIPv6Valid (s : GoString) : Bool :=
  match s with
  | ':' :: ':' :: rest =>
    if rest.isEmpty then true else ipv6Loop 9 0 true rest
  | _ => ipv6Loop 9 0 false s

/-- Go `net.splitHostZone`: drop a `%zone` suffix when the last `%` is at
a positive index; returns the host part only. -/
def hostPart (s : GoString) : GoString :=
  let pre := s.reverse.takeWhile (fun c => !(c == '%'))
  if pre.length = s.length then s
  else
    let i := s.length - pre.length - 1
    if 0 < i then s.take i else s

/-- govalidator `IsIP`: `net.ParseIP(s) != nil`.  `ParseIP` dispatches on
the first `.` or `:` found: a dot means IPv4, a colon means IPv6 (with an
optional zone suffix); neither means not an IP. -/
def IsIP (s : GoString) : Bool :=
  match s.find? (fun c => c == '.' || c == ':') with
  | none => false
  | some c => if c = '.' then parseIPv4Valid s else parseIPv6Valid (hostPart s)

/-! ### the two file-extension regexes of the normalizer -/

/-- Matcher for the anchored case-insensitive regex
`(?i)\.(?:png|jpg|jpeg|svg|tif|tiff|gif|ico)$` of the source. -/
def imageExtensionMatch (s : GoString) : Bool :=
  [String.toList ".png", String.toList ".jpg", String.toList ".jpeg",
   String.toList ".svg", String.toList ".tif", String.toList ".tiff",
   String.toList ".gif", String.toList ".ico"].any
    (fun e => e.isSuffixOf (s.map Char.toLower))

/-- Matcher for the anchored case-insensitive regex `(?i)\.(?:ttf|woff)$`
of the source. -/
def fontExtensionMatch (s : GoString) : Bool :=
  [String.toList ".ttf", String.toList ".woff"].any
    (fun e => e.isSuffixOf (s.map Char.toLower))

/-! ### path.Clean (Go path/path.go) -/

/-- The path element consisting of two dots. -/
def dd : GoString := ['.', '.']

/-- One step of the cleaning loop: a functional rendering of the lazybuf
loop of Go `path.Clean`.  `acc` is the stack of output elements.  A `..`
element pops a preceding real element, is dropped at the root of a rooted
path, and is kept in an unrooted path when there is nothing left to pop. -/
def cleanStep (rooted : Bool) (acc : List GoString) (e : GoString) :
    List GoString :=
  if e = dd then
    match acc.getLast? with
    | some l =>
      if l = dd then (if rooted then acc else acc ++ [dd])
      else acc.dropLast
    | none => if rooted then acc else acc ++ [dd]
  else acc ++ [e]

/-- The stack of output elements of Go `path.Clean`: empty elements and
`.` elements are dropped, the rest is folded through `cleanStep`. -/
def cleanStack (rooted : Bool) (p : GoString) : List GoString :=
  ((splitC '/' p).filter
    (fun e => !(e.isEmpty || e == ['.']))).foldl (cleanStep rooted) []

/-- Render a cleaned path from its rootedness and element stack. -/
def renderPath (rooted : Bool) (stack : List GoString) : GoString :=
  if rooted then '/' :: joinC '/' stack
  else if stack.isEmpty then ['.'] else joinC '/' stack

/-- Go `path.Clean`: lexical cleaning of slash-separated paths — iteratively
drop empty and `.` elements, resolve `..` against preceding elements
(eliminating `..` at the root of rooted paths), and canonicalize the empty
path to `.` and an emptied rooted path to `/`. -/
def pathClean (p : GoString) : GoString :=
  if p.isEmpty then ['.']
  else
    let rooted := decide (p.headI = '/')
    renderPath rooted (cleanStack rooted p)

/-! ### the normalizer package (src/pkg/normalizer/normalizer.go) -/

/-- Constants of the source file (lines 17-27). -/
def eventKeyFieldSeparator : Char := ':'
def numberPlaceholder : GoString := String.toList "0"
def ipPlaceholder : GoString := String.toList ":ip"
def hashPlaceholder : GoString := String.toList ":hash"
def uuidPlaceholder : GoString := String.toList ":uuid"
def imagePlaceholder : GoString := String.toList ":image"
def fontPlaceholder : GoString := String.toList ":font"
def pathItemsSeparator : Char := '/'

/-- A compiled regular expression, abstracted to its match function. -/
abbrev Matcher := GoString → Bool

/-- The `replacer` struct: a rewrite rule.  `regexpCompiled` is the cached
compiled pattern (`nil` when not yet compiled), `Regexp` the pattern
source, `Replacement` the literal replacement. -/
structure replacer where
  regexpCompiled : Option Matcher
  Regexp : GoString
  Replacement : GoString

/-- The `requestNormalizerConfig` struct loaded from configuration. -/
structure requestNormalizerConfig where
  GetParamWithEventIdentifier : GoString
  ReplaceRules : List replacer
  SanitizeHashes : Bool
  SanitizeNumbers : Bool
  SanitizeUids : Bool
  SanitizeIps : Bool
  SanitizeImages : Bool
  SanitizeFonts : Bool

/-- The `requestNormalizer` struct.  The prometheus observer field is
omitted: it only feeds the latency histogram and influences no output. -/
structure requestNormalizer where
  getParamWithEventIdentifier : GoString
  replaceRules : List replacer
  sanitizeHashes : Bool
  sanitizeNumbers : Bool
  sanitizeUids : Bool
  sanitizeIps : Bool
  sanitizeImages : Bool
  sanitizeFonts : Bool

section WithCompile

/- The `regexp.Compile` of Go's regexp library, abstracted: `none` is a
compilation error.  Every theorem below is universally quantified over it. -/
variable (compile : GoString → Option Matcher)

/-- `replacer.process` (lines 45-53).  Returns the updated receiver and the
result; `none` models the panic of `regexp.MustCompile` in the lazy
compilation branch taken when `regexpCompiled` is nil and the pattern is
invalid.  If the compiled pattern matches the path, the `Replacement` is
returned verbatim, otherwise the path is returned unchanged. -/
def replacer.process (n : replacer) (path : GoString) :
    Option (replacer × GoString) :=
  match n.regexpCompiled with
  | none =>
    match compile n.Regexp with
    | none => none
    | some m =>
      some ({ n with regexpCompiled := some m },
        if m path then n.Replacement else path)
  | some m => some (n, if m path then n.Replacement else path)

/-- The rewrite-rule loop of `normalizePath` (lines 129-131): each rule of
the slice is applied in order to the output of the previous one.  The
updated receiver returned by `process` is discarded, because Go's
`for _, rule := range` iterates over copies of the slice elements. -/
def applyRules (rules : List replacer) (p : GoString) : Option GoString :=
  match rules with
  | [] => some p
  | rule :: rest =>
    match rule.process compile p with
    | none => none
    | some (_, p2) => applyRules rest p2

/-- `precompileRegexps` (lines 114-123): compile every rule's pattern,
failing on the first invalid one, and store the compiled patterns back
into the rule slice. -/
def precompileRegexps (rules : List replacer) :
    Except GoString (List replacer) :=
  match rules with
  | [] => .ok []
  | rep :: rest =>
    match compile rep.Regexp with
    | none => .error (String.toList "failed to compile Regexp " ++ rep.Regexp)
    | some compiled =>
      match precompileRegexps rest with
      | .error e => .error e
      | .ok rest2 => .ok ({ rep with regexpCompiled := some compiled } :: rest2)

/-- `NewFromConfig` (lines 75-90): build the normalizer from the config
and precompile all rewrite rules, propagating a compilation failure. -/
def NewFromConfig (config : requestNormalizerConfig) :
    Except GoString requestNormalizer :=
  let normalizer : requestNormalizer :=
    { getParamWithEventIdentifier := config.GetParamWithEventIdentifier
      replaceRules := config.ReplaceRules
      sanitizeHashes := config.SanitizeHashes
      sanitizeNumbers := config.SanitizeNumbers
      sanitizeUids := config.SanitizeUids
      sanitizeIps := config.SanitizeIps
      sanitizeImages := config.SanitizeImages
      sanitizeFonts := config.SanitizeFonts }
  match precompileRegexps compile normalizer.replaceRules with
  | .error e => .error e
  | .ok rules => .ok { normalizer with replaceRules := rules }

end WithCompile

/-- The body of the sanitization loop of `normalizePath` (lines 134-170)
for one path segment.  `isLast` is the `i+1 == itemsCount` test guarding
the image/font heuristics. -/
def sanitizeItem (rn : requestNormalizer) (item : GoString) (isLast : Bool) :
    GoString :=
  if item.isEmpty then item
  else if rn.sanitizeHashes && (IsMD5 item || IsSHA1 item || IsSHA256 item) then
    hashPlaceholder
  else if rn.sanitizeNumbers && (IsNumeric item || IsHexadecimal item) then
    numberPlaceholder
  else if rn.sanitizeUids && (IsUUID item || IsUUIDv4 item) then
    uuidPlaceholder
  else if rn.sanitizeIps && IsIP item then ipPlaceholder
  else if isLast then
    if rn.sanitizeImages && imageExtensionMatch item then imagePlaceholder
    else if rn.sanitizeFonts && fontExtensionMatch item then fontPlaceholder
    else item
  else item

/-- The sanitization loop over all path segments; `total` is `itemsCount`
and `i` the index of the first element of the remaining list. -/
def sanitizeItems (rn : requestNormalizer) (total : Nat) :
    Nat → List GoString → List GoString
  | _, [] => []
  | i, item :: rest =>
    sanitizeItem rn item (i + 1 == total) :: sanitizeItems rn total (i + 1) rest

/-- `normalizePath` (lines 125-172): empty paths normalize to `/`; other
paths go through the rewrite rules, are cleaned and split on `/`, and each
segment is sanitized; the segments are rejoined with `/`.  `none` models
the `MustCompile` panic reachable only with an uncompiled invalid rule. -/
def normalizePath (compile : GoString → Option Matcher)
    (rn : requestNormalizer) (rawPath : GoString) : Option GoString :=
  if rawPath.isEmpty then some ['/']
  else
    match applyRules compile rn.replaceRules rawPath with
    | none => none
    | some rewritten =>
      let pathItems := splitC pathItemsSeparator (pathClean rewritten)
      let itemsCount := pathItems.length
      some (joinC pathItemsSeparator (sanitizeItems rn itemsCount 0 pathItems))

/-! ### events (modelled from the spec) and the stage -/

/-- Modelled from the spec: the URL of an HTTP request event, with its
path and its query parameters.  The `event` package and `net/url` are not
part of the source under verification; the query is carried already parsed,
as the ordered list of `name=value` pairs of the query string, which is
exactly the information `URL.Query()` exposes (values of one name listed
in order of appearance). -/
structure URL where
  Path : GoString
  Query : List (GoString × GoString)

/-- Go `URL.Query()[name]` with its `ok` flag: the values bound to `name`
in query-string order, or `none` when the name does not occur at all. -/
def URL.queryGet (u : URL) (name : GoString) : Option (List GoString) :=
  let vals := (u.Query.filter (fun kv => kv.1 == name)).map (fun kv => kv.2)
  if vals.isEmpty then none else some vals

/-- Modelled from the spec: the HTTP request event record, with its
method, URL and mutable `EventKey`. -/
structure HttpRequest where
  Method : GoString
  URL : URL
  EventKey : GoString

/-- `getNormalizedEventKey` (lines 174-187): join method, normalized path
and — when a query parameter name is configured and present — all its
values, with `:` as separator. -/
def getNormalizedEventKey (compile : GoString → Option Matcher)
    (rn : requestNormalizer) (event : HttpRequest) : Option GoString :=
  match normalizePath compile rn event.URL.Path with
  | none => none
  | some normalized =>
    let eventIdentifiers := [event.Method, normalized]
    let eventIdentifiers :=
      if !rn.getParamWithEventIdentifier.isEmpty then
        match event.URL.queryGet rn.getParamWithEventIdentifier with
        | some operationNames => eventIdentifiers ++ operationNames
        | none => eventIdentifiers
      else eventIdentifiers
    some (joinC eventKeyFieldSeparator eventIdentifiers)

/-- The per-event body of the `Run` loop (lines 193-203): an event that
already carries a non-empty key is forwarded unchanged; otherwise its key
is filled in from `getNormalizedEventKey`. -/
def runOnce (compile : GoString → Option Matcher) (rn : requestNormalizer)
    (newEvent : HttpRequest) : Option HttpRequest :=
  if !newEvent.EventKey.isEmpty then some newEvent
  else
    match getNormalizedEventKey compile rn newEvent with
    | none => none
    | some key => some { newEvent with EventKey := key }

/-- `Run` (lines 190-206).  The input and output channels are modelled as
the finite sequences of events received and sent: the single goroutine
forwards each processed event in arrival order and closes the output
channel when the input channel is exhausted, so the output sequence is
exactly the in-order image of the input sequence. -/
def Run (compile : GoString → Option Matcher) (rn : requestNormalizer)
    (inputs : List HttpRequest) : Option (List HttpRequest) :=
  match inputs with
  | [] => some []
  | e :: rest =>
    match runOnce compile rn e with
    | none => none
    | some e2 =>
      match Run compile rn rest with
      | none => none
      | some rest2 => some (e2 :: rest2)

/-! ### helper notions -/

/-- Every rewrite rule of the normalizer carries a compiled pattern, as
established by `NewFromConfig`. -/
def allCompiled (rn : requestNormalizer) : Prop :=
  ∀ rule ∈ rn.replaceRules, rule.regexpCompiled.isSome

instance (rn : requestNormalizer) : Decidable (allCompiled rn) :=
  List.decidableBAll _ rn.replaceRules

/-- The match function of a rule's compiled pattern (never-matching when
the rule is not compiled). -/
def matcherOf (r : replacer) : Matcher :=
  r.regexpCompiled.getD (fun _ => false)

/-- Specification-side rendering of section 4.1 of the spec: the rewrite
rules are evaluated in configured order, each consuming the output of the
previous one; a rule whose pattern matches replaces the whole path by its
replacement verbatim, any other rule leaves the path unchanged. -/
def applyRulesSpec (rules : List (Matcher × GoString)) (p : GoString) :
    GoString :=
  rules.foldl (fun q mr => if mr.1 q then mr.2 else q) p

/-! ### shape invariants of cleaned paths, towards idempotence (C1) -/

/-- A well-formed element of a cleaned path: non-empty, not `.`, free of
the separator. -/
def ElemOK (e : GoString) : Prop := e ≠ [] ∧ e ≠ ['.'] ∧ '/' ∉ e

/-- Invariant of the element stack produced by the cleaning fold: a block
of `..` elements (absent when the path is rooted) followed by ordinary
well-formed non-`..` elements. -/
def StackOK (rooted : Bool) (stack : List GoString) : Prop :=
  ∃ k rest, stack = List.replicate k dd ++ rest ∧
    (rooted = true → k = 0) ∧ ∀ e ∈ rest, ElemOK e ∧ e ≠ dd

/-- The segment list obtained by re-splitting a rendered cleaned path. -/
def renderItems (rooted : Bool) (stack : List GoString) : List GoString :=
  if rooted then [] :: (if stack.isEmpty then [[]] else stack)
  else if stack.isEmpty then [['.']] else stack

theorem splitC_ne_nil (sep : Char) (s : GoString) : splitC sep s ≠ [] := by
  cases s with
  | nil => simp [splitC]
  | cons c rest =>
    simp only [splitC]
    split
    · simp
    · split <;> simp

theorem splitC_cons_sep (sep : Char) (s : GoString) :
    splitC sep (sep :: s) = [] :: splitC sep s := by
  simp [splitC]

theorem splitC_cons_ne (sep c : Char) (s : GoString) (h : c ≠ sep) :
    splitC sep (c :: s) =
      (c :: (splitC sep s).headI) :: (splitC sep s).tail := by
  simp only [splitC, if_neg h]
  rcases hs : splitC sep s with _ | ⟨r, rs⟩
  · exact absurd hs (splitC_ne_nil sep s)
  · simp [List.headI]

/-- Every piece produced by `splitC` is free of the separator. -/
theorem splitC_sep_not_mem (sep : Char) (s : GoString) :
    ∀ p ∈ splitC sep s, sep ∉ p := by
  induction s with
  | nil => simp [splitC]
  | cons c rest ih =>
    intro p hp
    by_cases hc : c = sep
    · subst hc
      rw [splitC_cons_sep] at hp
      rcases List.mem_cons.mp hp with hp | hp
      · simp [hp]
      · exact ih p hp
    · rw [splitC_cons_ne sep c rest hc] at hp
      rcases List.mem_cons.mp hp with hp | hp
      · subst hp
        rcases hrest : splitC sep rest with _ | ⟨r, rs⟩
        · exact absurd hrest (splitC_ne_nil sep rest)
        · have hr : sep ∉ r := ih r (by rw [hrest]; exact List.mem_cons_self r rs)
          simp only [List.headI]
          intro hmem
          rcases List.mem_cons.mp hmem with h1 | h1
          · exact hc h1.symm
          · exact hr h1
      · rcases hrest : splitC sep rest with _ | ⟨r, rs⟩
        · exact absurd hrest (splitC_ne_nil sep rest)
        · rw [hrest] at hp
          simp only [List.tail] at hp
          exact ih p (by rw [hrest]; exact List.mem_cons_of_mem r hp)

/-- `splitC` of a separator-free string is the singleton list. -/
theorem splitC_of_not_mem (sep : Char) (s : GoString) (h : sep ∉ s) :
    splitC sep s = [s] := by
  induction s with
  | nil => simp [splitC]
  | cons c rest ih =>
    have hc : c ≠ sep := fun hc => h (hc ▸ List.mem_cons_self c rest)
    have hrest : sep ∉ rest := fun hm => h (List.mem_cons_of_mem c hm)
    rw [splitC_cons_ne sep c rest hc, ih hrest]
    simp [List.headI]

theorem splitC_append_sep (sep : Char) (x t : GoString) (hx : sep ∉ x) :
    splitC sep (x ++ sep :: t) = x :: splitC sep t := by
  induction x with
  | nil => simpa using splitC_cons_sep sep t
  | cons c rest ih =>
    have hc : c ≠ sep := fun hc => hx (hc ▸ List.mem_cons_self c rest)
    have hrest : sep ∉ rest := fun hm => hx (List.mem_cons_of_mem c hm)
    have := ih hrest
    rw [List.cons_append, splitC_cons_ne sep c (rest ++ sep :: t) hc, this]
    simp [List.headI]

/-- Round trip: splitting a join recovers the pieces, provided none of the
pieces contains the separator and the list of pieces is non-empty. -/
theorem splitC_joinC (sep : Char) (l : List GoString) (hne : l ≠ [])
    (hfree : ∀ p ∈ l, sep ∉ p) : splitC sep (joinC sep l) = l := by
  induction l with
  | nil => exact absurd rfl hne
  | cons x rest ih =>
    cases rest with
    | nil =>
      simp only [joinC]
      exact splitC_of_not_mem sep x (hfree x (List.mem_cons_self x []))
    | cons y rest2 =>
      have hx : sep ∉ x := hfree x (List.mem_cons_self x _)
      have hrest : ∀ p ∈ y :: rest2, sep ∉ p := fun p hp =>
        hfree p (List.mem_cons_of_mem x hp)
      simp only [joinC]
      rw [splitC_append_sep sep x (joinC sep (y :: rest2)) hx,
        ih (by simp) hrest]

/-- Round trip: joining a split recovers the string. -/
theorem joinC_splitC (sep : Char) (s : GoString) :
    joinC sep (splitC sep s) = s := by
  induction s with
  | nil => simp [splitC, joinC]
  | cons c rest ih =>
    by_cases hc : c = sep
    · subst hc
      rw [splitC_cons_sep]
      rcases hrest : splitC c rest with _ | ⟨r, rs⟩
      · exact absurd hrest (splitC_ne_nil c rest)
      · rw [hrest] at ih
        simp only [joinC]
        rw [← ih]
        simp
    · rw [splitC_cons_ne sep c rest hc]
      rcases hrest : splitC sep rest with _ | ⟨r, rs⟩
      · exact absurd hrest (splitC_ne_nil sep rest)
      · rw [hrest] at ih
        cases rs with
        | nil => simp only [joinC, List.headI, List.tail] at ih ⊢; rw [ih]
        | cons z zs =>
          simp only [joinC, List.headI, List.tail] at ih ⊢
          rw [List.cons_append, ih]

theorem process_of_compiled (compile : GoString → Option Matcher)
    (r : replacer) (m : Matcher) (hm : r.regexpCompiled = some m)
    (path : GoString) :
    r.process compile path = some (r, if m path then r.Replacement else path) := by
  simp [replacer.process, hm]

theorem applyRules_eq_spec (compile : GoString → Option Matcher)
    (rules : List replacer) (h : ∀ r ∈ rules, r.regexpCompiled.isSome)
    (p : GoString) :
    applyRules compile rules p =
      some (applyRulesSpec (rules.map fun r => (matcherOf r, r.Replacement)) p) := by
  induction rules generalizing p with
  | nil => simp [applyRules, applyRulesSpec]
  | cons r rest ih =>
    obtain ⟨m, hm⟩ := Option.isSome_iff_exists.mp
      (h r (List.mem_cons_self r rest))
    have hrest : ∀ r2 ∈ rest, r2.regexpCompiled.isSome := fun r2 h2 =>
      h r2 (List.mem_cons_of_mem r h2)
    have hmat : matcherOf r = m := by simp [matcherOf, hm]
    simp only [applyRules, process_of_compiled compile r m hm,
      ih hrest, applyRulesSpec, List.map_cons, List.foldl_cons, hmat]

theorem normalizePath_isSome (compile : GoString → Option Matcher)
    (rn : requestNormalizer) (h : allCompiled rn) (p : GoString) :
    (normalizePath compile rn p).isSome := by
  by_cases hp : p.isEmpty
  · simp [normalizePath, hp]
  · simp [normalizePath, hp, applyRules_eq_spec compile rn.replaceRules h p]

theorem getNormalizedEventKey_isSome (compile : GoString → Option Matcher)
    (rn : requestNormalizer) (h : allCompiled rn) (e : HttpRequest) :
    (getNormalizedEventKey compile rn e).isSome := by
  have := normalizePath_isSome compile rn h e.URL.Path
  obtain ⟨np, hnp⟩ := Option.isSome_iff_exists.mp this
  simp only [getNormalizedEventKey, hnp]
  split <;> simp

theorem runOnce_isSome (compile : GoString → Option Matcher)
    (rn : requestNormalizer) (h : allCompiled rn) (e : HttpRequest) :
    (runOnce compile rn e).isSome := by
  by_cases hk : e.EventKey.isEmpty
  · obtain ⟨k, hkey⟩ := Option.isSome_iff_exists.mp
      (getNormalizedEventKey_isSome compile rn h e)
    simp [runOnce, hk, hkey]
  · simp [runOnce, hk]

theorem precompileRegexps_ok (compile : GoString → Option Matcher)
    (rules out : List replacer)
    (h : precompileRegexps compile rules = .ok out) :
    ∀ r ∈ out, r.regexpCompiled.isSome := by
  induction rules generalizing out with
  | nil =>
    simp only [precompileRegexps] at h
    cases h
    simp
  | cons rep rest ih =>
    simp only [precompileRegexps] at h
    rcases hc : compile rep.Regexp with _ | compiled
    · rw [hc] at h; cases h
    · rw [hc] at h
      rcases hr : precompileRegexps compile rest with e | rest2
      · rw [hr] at h; cases h
      · rw [hr] at h
        cases h
        intro r hrmem
        rcases List.mem_cons.mp hrmem with h1 | h1
        · subst h1; simp
        · exact ih rest2 hr r h1

theorem precompileRegexps_ok_iff (compile : GoString → Option Matcher)
    (rules : List replacer) :
    (∃ out, precompileRegexps compile rules = .ok out) ↔
      ∀ r ∈ rules, (compile r.Regexp).isSome := by
  induction rules with
  | nil => simp [precompileRegexps]
  | cons rep rest ih =>
    simp only [precompileRegexps]
    rcases hc : compile rep.Regexp with _ | compiled
    · constructor
      · rintro ⟨out, hout⟩; cases hout
      · intro hall
        have := hall rep (List.mem_cons_self rep rest)
        rw [hc] at this
        cases this
    · rcases hr : precompileRegexps compile rest with e | rest2
      · constructor
        · rintro ⟨out, hout⟩; cases hout
        · intro hall
          have hok : ∃ out, precompileRegexps compile rest = .ok out :=
            ih.mpr fun r h1 => hall r (List.mem_cons_of_mem rep h1)
          rcases hok with ⟨out, hout⟩
          rw [hr] at hout
          cases hout
      · constructor
        · rintro ⟨out, hout⟩
          intro r hrmem
          rcases List.mem_cons.mp hrmem with h1 | h1
          · subst h1; simp [hc]
          · exact ih.mp ⟨rest2, hr⟩ r h1
        · intro hall
          exact ⟨_, rfl⟩

theorem ElemOK_dd : ElemOK dd := by
  refine ⟨by decide, by decide, by decide⟩

theorem StackOK_nil (rooted : Bool) : StackOK rooted [] :=
  ⟨0, [], rfl, fun _ => rfl, by simp⟩

theorem StackOK.mem_ElemOK {rooted : Bool} {s : List GoString}
    (h : StackOK rooted s) : ∀ e ∈ s, ElemOK e := by
  obtain ⟨k, rest, rfl, hk, hrest⟩ := h
  intro e he
  rcases List.mem_append.mp he with h1 | h1
  · rw [List.eq_of_mem_replicate h1]; exact ElemOK_dd
  · exact (hrest e h1).1

theorem StackOK.slashFree {rooted : Bool} {s : List GoString}
    (h : StackOK rooted s) : ∀ e ∈ s, '/' ∉ e :=
  fun e he => (h.mem_ElemOK e he).2.2

theorem StackOK.ne_nil {rooted : Bool} {s : List GoString}
    (h : StackOK rooted s) : ∀ e ∈ s, e ≠ [] :=
  fun e he => (h.mem_ElemOK e he).1

theorem StackOK.ne_dot {rooted : Bool} {s : List GoString}
    (h : StackOK rooted s) : ∀ e ∈ s, e ≠ ['.'] :=
  fun e he => (h.mem_ElemOK e he).2.1

theorem StackOK.rooted_no_dd {s : List GoString}
    (h : StackOK true s) : ∀ e ∈ s, e ≠ dd := by
  obtain ⟨k, rest, rfl, hk, hrest⟩ := h
  rw [hk rfl]
  intro e he
  exact (hrest e (by simpa using he)).2

theorem joinC_renderItems (rooted : Bool) (stack : List GoString) :
    joinC '/' (renderItems rooted stack) = renderPath rooted stack := by
  cases rooted with
  | true =>
    cases stack with
    | nil => simp [renderItems, renderPath, joinC]
    | cons x rest => simp [renderItems, renderPath, joinC]
  | false =>
    cases stack with
    | nil => simp [renderItems, renderPath, joinC]
    | cons x rest => simp [renderItems, renderPath]

theorem splitC_renderPath (rooted : Bool) (stack : List GoString)
    (hfree : ∀ e ∈ stack, '/' ∉ e) :
    splitC '/' (renderPath rooted stack) = renderItems rooted stack := by
  cases rooted with
  | true =>
    cases stack with
    | nil => simp [renderPath, renderItems, joinC]; decide
    | cons x rest =>
      have h1 : splitC '/' ('/' :: joinC '/' (x :: rest)) =
          [] :: splitC '/' (joinC '/' (x :: rest)) := splitC_cons_sep _ _
      have h2 : splitC '/' (joinC '/' (x :: rest)) = x :: rest :=
        splitC_joinC '/' (x :: rest) (by simp) hfree
      simp [renderPath, renderItems, h1, h2]
  | false =>
    cases stack with
    | nil => simp [renderPath, renderItems]; decide
    | cons x rest =>
      have h2 : splitC '/' (joinC '/' (x :: rest)) = x :: rest :=
        splitC_joinC '/' (x :: rest) (by simp) hfree
      simp [renderPath, renderItems, h2]

theorem cleanStep_ne_dd (rooted : Bool) (acc : List GoString)
    (e : GoString) (h : e ≠ dd) : cleanStep rooted acc e = acc ++ [e] := by
  simp [cleanStep, h]

theorem cleanStep_dd_of_getLast_none (rooted : Bool) (acc : List GoString)
    (h : acc.getLast? = none) :
    cleanStep rooted acc dd = if rooted then acc else acc ++ [dd] := by
  simp [cleanStep, h]

theorem cleanStep_dd_of_getLast_dd (rooted : Bool) (acc : List GoString)
    (h : acc.getLast? = some dd) :
    cleanStep rooted acc dd = if rooted then acc else acc ++ [dd] := by
  simp [cleanStep, h]

theorem cleanStep_dd_of_getLast_ne (rooted : Bool) (acc : List GoString)
    (l : GoString) (h : acc.getLast? = some l) (hne : l ≠ dd) :
    cleanStep rooted acc dd = acc.dropLast := by
  simp [cleanStep, h, hne]

theorem cleanStep_preserves (rooted : Bool) (acc : List GoString)
    (e : GoString) (he : e ≠ [] ∧ e ≠ ['.'] ∧ '/' ∉ e)
    (hacc : StackOK rooted acc) : StackOK rooted (cleanStep rooted acc e) := by
  obtain ⟨k, rest, rfl, hk, hrest⟩ := hacc
  by_cases hdd : e = dd
  · subst hdd
    cases hrestnil : rest with
    | nil =>
      subst hrestnil
      rw [List.append_nil]
      cases k with
      | zero =>
        rw [List.replicate_zero,
          cleanStep_dd_of_getLast_none rooted [] List.getLast?_nil]
        cases rooted with
        | true => simpa using StackOK_nil true
        | false =>
          exact ⟨1, [], by simp, ⟨(fun h => nomatch h), by simp⟩⟩
      | succ k2 =>
        have hlast : (List.replicate (k2 + 1) dd).getLast? = some dd := by
          rw [List.replicate_succ', List.getLast?_concat]
        rw [cleanStep_dd_of_getLast_dd rooted _ hlast]
        cases rooted with
        | true => exact absurd (hk rfl) (by simp)
        | false =>
          rw [if_neg (by simp), ← List.replicate_succ']
          exact ⟨k2 + 2, [], by simp, ⟨(fun h => nomatch h), by simp⟩⟩
    | cons r0 rrest =>
      have hrne : rest ≠ [] := by rw [hrestnil]; simp
      have hlastmem := List.getLast_mem hrne
      have hlast : (List.replicate k dd ++ rest).getLast? =
          some (rest.getLast hrne) := by
        rw [List.getLast?_append_of_ne_nil _ hrne,
          List.getLast?_eq_getLast_of_ne_nil hrne]
      have hlastne : rest.getLast hrne ≠ dd := (hrest _ hlastmem).2
      rw [← hrestnil]
      rw [cleanStep_dd_of_getLast_ne rooted _ _ hlast hlastne,
        List.dropLast_append_of_ne_nil _ hrne]
      exact ⟨k, rest.dropLast, rfl, hk,
        fun e2 he2 => hrest e2 (List.dropLast_subset rest he2)⟩
  · rw [cleanStep_ne_dd rooted _ e hdd]
    exact ⟨k, rest ++ [e], by rw [List.append_assoc], hk, by
      intro e2 he2
      rcases List.mem_append.mp he2 with h1 | h1
      · exact hrest e2 h1
      · rw [List.mem_singleton.mp h1]
        exact ⟨he, hdd⟩⟩

theorem foldl_cleanStep_preserves (rooted : Bool) (elems : List GoString)
    (helems : ∀ e ∈ elems, e ≠ [] ∧ e ≠ ['.'] ∧ '/' ∉ e)
    (acc : List GoString) (hacc : StackOK rooted acc) :
    StackOK rooted (elems.foldl (cleanStep rooted) acc) := by
  induction elems generalizing acc with
  | nil => exact hacc
  | cons e rest ih =>
    exact ih (fun e2 h2 => helems e2 (List.mem_cons_of_mem e h2)) _
      (cleanStep_preserves rooted acc e (helems e (List.mem_cons_self e rest)) hacc)

theorem cleanStack_StackOK (rooted : Bool) (p : GoString) :
    StackOK rooted (cleanStack rooted p) := by
  refine foldl_cleanStep_preserves rooted _ ?_ [] (StackOK_nil rooted)
  intro e he
  have hmem := List.mem_filter.mp he
  have hsplit := splitC_sep_not_mem '/' p e hmem.1
  have hcond := hmem.2
  simp only [Bool.or_eq_true, Bool.not_eq_true', Bool.or_eq_false_iff] at hcond
  refine ⟨by simpa using hcond.1, by simpa using hcond.2, hsplit⟩

theorem pathClean_shape (p : GoString) :
    ∃ rooted stack, StackOK rooted stack ∧
      pathClean p = renderPath rooted stack := by
  by_cases hp : p.isEmpty
  · exact ⟨false, [], StackOK_nil false, by simp [pathClean, hp, renderPath]⟩
  · exact ⟨decide (p.headI = '/'), cleanStack (decide (p.headI = '/')) p,
      cleanStack_StackOK _ p, by simp [pathClean, hp]⟩

theorem renderPath_isEmpty_eq_false (rooted : Bool) (stack : List GoString)
    (h : StackOK rooted stack) : (renderPath rooted stack).isEmpty = false := by
  cases rooted with
  | true => simp [renderPath]
  | false =>
    cases stack with
    | nil => simp [renderPath]
    | cons x rest =>
      cases rest with
      | nil =>
        have hx : x ≠ [] := h.ne_nil x (List.mem_cons_self x [])
        simp only [renderPath, List.isEmpty_cons, joinC]
        simpa [List.isEmpty_iff] using hx
      | cons y rest2 =>
        have hx : x ≠ [] := h.ne_nil x (List.mem_cons_self x _)
        simp only [renderPath, List.isEmpty_cons, joinC]
        cases x with
        | nil => exact absurd rfl hx
        | cons c cs => simp

theorem renderPath_headI (rooted : Bool) (stack : List GoString)
    (h : StackOK rooted stack) :
    decide ((renderPath rooted stack).headI = '/') = rooted := by
  cases rooted with
  | true => simp [renderPath]
  | false =>
    cases stack with
    | nil => simp [renderPath]
    | cons x rest =>
      have hx : x ≠ [] := h.ne_nil x (List.mem_cons_self x _)
      have hxslash : '/' ∉ x := h.slashFree x (List.mem_cons_self x _)
      have hhead : x.headI ≠ '/' := by
        cases x with
        | nil => exact absurd rfl hx
        | cons c cs =>
          simp only [List.headI]
          exact fun hc => hxslash (hc ▸ List.mem_cons_self c cs)
      cases rest with
      | nil =>
        simp only [renderPath, List.isEmpty_cons, if_neg, joinC]
        simpa using hhead
      | cons y rest2 =>
        simp only [renderPath, List.isEmpty_cons, joinC]
        cases x with
        | nil => exact absurd rfl hx
        | cons c cs =>
          simp only [List.cons_append, List.headI] at hhead ⊢
          simpa using hhead

theorem renderItems_filter (rooted : Bool) (stack : List GoString)
    (h : StackOK rooted stack) :
    (renderItems rooted stack).filter
      (fun e => !(e.isEmpty || e == ['.'])) = stack := by
  have hstack : ∀ s2 : List GoString, StackOK rooted s2 →
      s2.filter (fun e => !(e.isEmpty || e == ['.'])) = s2 := by
    intro s2 h2
    apply List.filter_eq_self.mpr
    intro e he
    have h3 := h2.mem_ElemOK e he
    have h4 : e ≠ [] := h3.1
    have h5 : e ≠ ['.'] := h3.2.1
    simp only [Bool.not_eq_true', Bool.or_eq_false_iff]
    constructor
    · simpa [List.isEmpty_iff] using h4
    · simpa using h5
  cases rooted with
  | true =>
    cases stack with
    | nil => simp [renderItems]
    | cons x rest =>
      simp only [renderItems, List.isEmpty_cons, if_true, if_neg]
      rw [List.filter_cons]
      simp only [List.isEmpty_nil]
      simpa using hstack (x :: rest) h
  | false =>
    cases stack with
    | nil => simp [renderItems]
    | cons x rest =>
      simp only [renderItems]
      simpa using hstack (x :: rest) h

theorem foldl_cleanStep_no_dd (rooted : Bool) (l acc : List GoString)
    (h : ∀ e ∈ l, e ≠ dd) :
    l.foldl (cleanStep rooted) acc = acc ++ l := by
  induction l generalizing acc with
  | nil => simp
  | cons x rest ih =>
    have hx : x ≠ dd := h x (List.mem_cons_self x rest)
    rw [List.foldl_cons, cleanStep_ne_dd rooted acc x hx,
      ih _ (fun e he => h e (List.mem_cons_of_mem x he))]
    simp

theorem foldl_cleanStep_replicate_dd (j k : Nat) :
    (List.replicate k dd).foldl (cleanStep false) (List.replicate j dd) =
      List.replicate (j + k) dd := by
  induction k generalizing j with
  | zero => simp
  | succ k2 ih =>
    rw [List.replicate_succ, List.foldl_cons]
    have hstep : cleanStep false (List.replicate j dd) dd =
        List.replicate (j + 1) dd := by
      cases j with
      | zero =>
        rw [List.replicate_zero,
          cleanStep_dd_of_getLast_none false [] List.getLast?_nil]
        simp
      | succ j2 =>
        have hlast : (List.replicate (j2 + 1) dd).getLast? = some dd := by
          rw [List.replicate_succ', List.getLast?_concat]
        rw [cleanStep_dd_of_getLast_dd false _ hlast, if_neg (by simp),
          ← List.replicate_succ']
    rw [hstep, ih (j + 1)]
    ring_nf

theorem foldl_cleanStep_fixed (rooted : Bool) (stack : List GoString)
    (h : StackOK rooted stack) :
    stack.foldl (cleanStep rooted) [] = stack := by
  obtain ⟨k, rest, rfl, hk, hrest⟩ := h
  cases rooted with
  | true =>
    rw [hk rfl]
    simp only [List.replicate_zero, List.nil_append]
    rw [foldl_cleanStep_no_dd true rest [] (fun e he => (hrest e he).2)]
    simp
  | false =>
    rw [List.foldl_append]
    have h1 := foldl_cleanStep_replicate_dd 0 k
    simp only [List.replicate_zero, Nat.zero_add] at h1
    rw [h1, foldl_cleanStep_no_dd false rest _ (fun e he => (hrest e he).2)]

theorem pathClean_renderPath (rooted : Bool) (stack : List GoString)
    (h : StackOK rooted stack) :
    pathClean (renderPath rooted stack) = renderPath rooted stack := by
  have hne := renderPath_isEmpty_eq_false rooted stack h
  simp only [pathClean, hne, Bool.false_eq_true, if_false, cleanStack,
    renderPath_headI rooted stack h,
    splitC_renderPath rooted stack h.slashFree,
    renderItems_filter rooted stack h,
    foldl_cleanStep_fixed rooted stack h]

theorem sanitizeItem_outcomes (rn : requestNormalizer) (item : GoString)
    (isLast : Bool) :
    sanitizeItem rn item isLast = item ∨
    sanitizeItem rn item isLast = hashPlaceholder ∨
    sanitizeItem rn item isLast = numberPlaceholder ∨
    sanitizeItem rn item isLast = uuidPlaceholder ∨
    sanitizeItem rn item isLast = ipPlaceholder ∨
    sanitizeItem rn item isLast = imagePlaceholder ∨
    sanitizeItem rn item isLast = fontPlaceholder := by
  unfold sanitizeItem
  repeat' split
  all_goals tauto

theorem sanitizeItem_nil (rn : requestNormalizer) (isLast : Bool) :
    sanitizeItem rn [] isLast = [] := by
  simp [sanitizeItem]

theorem sanitizeItem_of_checks_false (rn : requestNormalizer)
    (item : GoString) (isLast : Bool)
    (h1 : (IsMD5 item || IsSHA1 item || IsSHA256 item) = false)
    (h2 : (IsNumeric item || IsHexadecimal item) = false)
    (h3 : (IsUUID item || IsUUIDv4 item) = false)
    (h4 : IsIP item = false)
    (h5 : imageExtensionMatch item = false)
    (h6 : fontExtensionMatch item = false) :
    sanitizeItem rn item isLast = item := by
  simp [sanitizeItem, h1, h2, h3, h4, h5, h6]

theorem sanitizeItem_hashPlaceholder (rn : requestNormalizer) (isLast : Bool) :
    sanitizeItem rn hashPlaceholder isLast = hashPlaceholder :=
  sanitizeItem_of_checks_false rn hashPlaceholder isLast (by decide)
    (by decide) (by decide) (by decide) (by decide) (by decide)

theorem sanitizeItem_uuidPlaceholder (rn : requestNormalizer) (isLast : Bool) :
    sanitizeItem rn uuidPlaceholder isLast = uuidPlaceholder :=
  sanitizeItem_of_checks_false rn uuidPlaceholder isLast (by decide)
    (by decide) (by decide) (by decide) (by decide) (by decide)

theorem sanitizeItem_ipPlaceholder (rn : requestNormalizer) (isLast : Bool) :
    sanitizeItem rn ipPlaceholder isLast = ipPlaceholder :=
  sanitizeItem_of_checks_false rn ipPlaceholder isLast (by decide)
    (by decide) (by decide) (by decide) (by decide) (by decide)

theorem sanitizeItem_imagePlaceholder (rn : requestNormalizer) (isLast : Bool) :
    sanitizeItem rn imagePlaceholder isLast = imagePlaceholder :=
  sanitizeItem_of_checks_false rn imagePlaceholder isLast (by decide)
    (by decide) (by decide) (by decide) (by decide) (by decide)

theorem sanitizeItem_fontPlaceholder (rn : requestNormalizer) (isLast : Bool) :
    sanitizeItem rn fontPlaceholder isLast = fontPlaceholder :=
  sanitizeItem_of_checks_false rn fontPlaceholder isLast (by decide)
    (by decide) (by decide) (by decide) (by decide) (by decide)

theorem sanitizeItem_numberPlaceholder (rn : requestNormalizer)
    (isLast : Bool) :
    sanitizeItem rn numberPlaceholder isLast = numberPlaceholder := by
  have h1a : IsMD5 ['0'] = false := by decide
  have h1b : IsSHA1 ['0'] = false := by decide
  have h1c : IsSHA256 ['0'] = false := by decide
  have h2 : IsNumeric ['0'] = true := by decide
  have h3a : IsUUID ['0'] = false := by decide
  have h3b : IsUUIDv4 ['0'] = false := by decide
  have h4 : IsIP ['0'] = false := by decide
  have h5 : imageExtensionMatch ['0'] = false := by decide
  have h6 : fontExtensionMatch ['0'] = false := by decide
  cases hn : rn.sanitizeNumbers with
  | true =>
    simp [sanitizeItem, numberPlaceholder, h1a, h1b, h1c, h2, hn]
  | false =>
    simp [sanitizeItem, numberPlaceholder, h1a, h1b, h1c, h3a, h3b, h4, h5,
      h6, hn]

theorem sanitizeItem_dd (rn : requestNormalizer) (isLast : Bool) :
    sanitizeItem rn dd isLast = dd :=
  sanitizeItem_of_checks_false rn dd isLast (by decide) (by decide)
    (by decide) (by decide) (by decide) (by decide)

theorem sanitizeItem_dot (rn : requestNormalizer) (isLast : Bool) :
    sanitizeItem rn ['.'] isLast = ['.'] :=
  sanitizeItem_of_checks_false rn ['.'] isLast (by decide) (by decide)
    (by decide) (by decide) (by decide) (by decide)

theorem sanitizeItem_idem (rn : requestNormalizer) (item : GoString)
    (isLast : Bool) :
    sanitizeItem rn (sanitizeItem rn item isLast) isLast =
      sanitizeItem rn item isLast := by
  rcases sanitizeItem_outcomes rn item isLast with
    h | h | h | h | h | h | h
  · rw [h, h]
  · rw [h, sanitizeItem_hashPlaceholder]
  · rw [h, sanitizeItem_numberPlaceholder]
  · rw [h, sanitizeItem_uuidPlaceholder]
  · rw [h, sanitizeItem_ipPlaceholder]
  · rw [h, sanitizeItem_imagePlaceholder]
  · rw [h, sanitizeItem_fontPlaceholder]

theorem sanitizeItems_length (rn : requestNormalizer) (total i : Nat)
    (l : List GoString) :
    (sanitizeItems rn total i l).length = l.length := by
  induction l generalizing i with
  | nil => rfl
  | cons x rest ih => simp [sanitizeItems, ih]

theorem sanitizeItems_append (rn : requestNormalizer) (total i : Nat)
    (a b : List GoString) :
    sanitizeItems rn total i (a ++ b) =
      sanitizeItems rn total i a ++ sanitizeItems rn total (i + a.length) b := by
  induction a generalizing i with
  | nil => simp [sanitizeItems]
  | cons x rest ih =>
    have h1 : sanitizeItems rn total i ((x :: rest) ++ b) =
        sanitizeItem rn x (i + 1 == total) ::
          sanitizeItems rn total (i + 1) (rest ++ b) := rfl
    have h2 : sanitizeItems rn total i (x :: rest) =
        sanitizeItem rn x (i + 1 == total) ::
          sanitizeItems rn total (i + 1) rest := rfl
    rw [h1, h2, ih (i + 1), List.length_cons]
    have harith : i + (rest.length + 1) = i + 1 + rest.length := by ring
    rw [harith]
    simp

theorem sanitizeItems_replicate_dd (rn : requestNormalizer) (total i k : Nat) :
    sanitizeItems rn total i (List.replicate k dd) = List.replicate k dd := by
  induction k generalizing i with
  | zero => rfl
  | succ k2 ih =>
    simp only [List.replicate_succ, sanitizeItems, sanitizeItem_dd, ih (i + 1)]

theorem sanitizeItems_idem (rn : requestNormalizer) (total i : Nat)
    (l : List GoString) :
    sanitizeItems rn total i (sanitizeItems rn total i l) =
      sanitizeItems rn total i l := by
  induction l generalizing i with
  | nil => rfl
  | cons x rest ih =>
    simp only [sanitizeItems, sanitizeItem_idem, ih (i + 1)]

theorem sanitizeItems_mem (rn : requestNormalizer) (total i : Nat)
    (l : List GoString) :
    ∀ e2 ∈ sanitizeItems rn total i l,
      ∃ e ∈ l, ∃ isLast, e2 = sanitizeItem rn e isLast := by
  induction l generalizing i with
  | nil => simp [sanitizeItems]
  | cons x rest ih =>
    intro e2 he2
    rcases List.mem_cons.mp he2 with h1 | h1
    · exact ⟨x, List.mem_cons_self x rest, i + 1 == total, h1⟩
    · obtain ⟨e, hmem, isLast, heq⟩ := ih (i + 1) e2 h1
      exact ⟨e, List.mem_cons_of_mem x hmem, isLast, heq⟩

theorem sanitizeItem_preserves_OK (rn : requestNormalizer) (e : GoString)
    (isLast : Bool) (h : ElemOK e ∧ e ≠ dd) :
    ElemOK (sanitizeItem rn e isLast) ∧ sanitizeItem rn e isLast ≠ dd := by
  rcases sanitizeItem_outcomes rn e isLast with
    heq | heq | heq | heq | heq | heq | heq
  · rw [heq]; exact h
  all_goals rw [heq]
  · exact ⟨⟨by decide, by decide, by decide⟩, by decide⟩
  · exact ⟨⟨by decide, by decide, by decide⟩, by decide⟩
  · exact ⟨⟨by decide, by decide, by decide⟩, by decide⟩
  · exact ⟨⟨by decide, by decide, by decide⟩, by decide⟩
  · exact ⟨⟨by decide, by decide, by decide⟩, by decide⟩
  · exact ⟨⟨by decide, by decide, by decide⟩, by decide⟩

/-- The central shape lemma: for every raw path `q`, the segments of the
cleaned path sanitize to the re-split form of a well-formed stack, and
sanitizing them a second time (with the same segment count) changes
nothing. -/
theorem sanitize_shape (rn : requestNormalizer) (q : GoString) :
    ∃ rooted stack2, StackOK rooted stack2 ∧
      sanitizeItems rn (splitC '/' (pathClean q)).length 0
          (splitC '/' (pathClean q)) = renderItems rooted stack2 ∧
      sanitizeItems rn (renderItems rooted stack2).length 0
          (renderItems rooted stack2) = renderItems rooted stack2 := by
  obtain ⟨rooted, stack, hOK, hclean⟩ := pathClean_shape q
  rw [hclean, splitC_renderPath rooted stack hOK.slashFree]
  cases rooted with
  | true =>
    cases hstack : stack with
    | nil =>
      refine ⟨true, [], StackOK_nil true, ?_, ?_⟩ <;>
        simp [renderItems, sanitizeItems, sanitizeItem_nil]
    | cons x rest =>
      subst hstack
      have hitems : renderItems true (x :: rest) = [] :: x :: rest := by
        simp [renderItems]
      rw [hitems]
      set n := ([] :: x :: rest).length with hn
      have hs2len : (sanitizeItems rn n 1 (x :: rest)).length =
          rest.length + 1 := by
        rw [sanitizeItems_length]; simp
      have hs2ne : sanitizeItems rn n 1 (x :: rest) ≠ [] := by
        intro hcon
        rw [hcon] at hs2len
        simp at hs2len
      have hOK2 : StackOK true (sanitizeItems rn n 1 (x :: rest)) := by
        refine ⟨0, sanitizeItems rn n 1 (x :: rest), by simp,
          fun _ => rfl, ?_⟩
        intro e2 he2
        obtain ⟨e, hmem, isLast, heq⟩ :=
          sanitizeItems_mem rn n 1 (x :: rest) e2 he2
        rw [heq]
        exact sanitizeItem_preserves_OK rn e isLast
          ⟨hOK.mem_ElemOK e hmem, hOK.rooted_no_dd e hmem⟩
      have hitems2 : renderItems true (sanitizeItems rn n 1 (x :: rest)) =
          [] :: sanitizeItems rn n 1 (x :: rest) := by
        simp only [renderItems, if_true]
        rw [if_neg (by simpa [List.isEmpty_iff] using hs2ne)]
      refine ⟨true, sanitizeItems rn n 1 (x :: rest), hOK2, ?_, ?_⟩
      · rw [hitems2]
        simp only [sanitizeItems, sanitizeItem_nil, Nat.zero_add]
      · rw [hitems2]
        have hlen2 : ([] :: sanitizeItems rn n 1 (x :: rest)).length = n := by
          rw [List.length_cons, hs2len, hn]
          simp
        rw [hlen2]
        simp only [sanitizeItems, sanitizeItem_nil, Nat.zero_add,
          sanitizeItem_idem, sanitizeItems_idem]
  | false =>
    cases hstack : stack with
    | nil =>
      refine ⟨false, [], StackOK_nil false, ?_, ?_⟩ <;>
        simp [renderItems, sanitizeItems, sanitizeItem_dot]
    | cons x rest =>
      subst hstack
      have hitems : renderItems false (x :: rest) = x :: rest := by
        simp [renderItems]
      rw [hitems]
      set n := (x :: rest).length with hn
      obtain ⟨k, rrest, hsplit, _, hrrest⟩ := hOK
      have hs2len : (sanitizeItems rn n 0 (x :: rest)).length =
          rest.length + 1 := by
        rw [sanitizeItems_length]; simp
      have hs2ne : sanitizeItems rn n 0 (x :: rest) ≠ [] := by
        intro hcon
        rw [hcon] at hs2len
        simp at hs2len
      have hOK2 : StackOK false (sanitizeItems rn n 0 (x :: rest)) := by
        refine ⟨k, sanitizeItems rn n k rrest, ?_,
          (fun h => nomatch h), ?_⟩
        · rw [hsplit, sanitizeItems_append, sanitizeItems_replicate_dd]
          simp
        · intro e2 he2
          obtain ⟨e, hmem, isLast, heq⟩ :=
            sanitizeItems_mem rn n k rrest e2 he2
          rw [heq]
          exact sanitizeItem_preserves_OK rn e isLast (hrrest e hmem)
      have hitems2 : renderItems false (sanitizeItems rn n 0 (x :: rest)) =
          sanitizeItems rn n 0 (x :: rest) := by
        simp only [renderItems, if_false, Bool.false_eq_true]
        rw [if_neg (by simpa [List.isEmpty_iff] using hs2ne)]
      refine ⟨false, sanitizeItems rn n 0 (x :: rest), hOK2, ?_, ?_⟩
      · rw [hitems2]
      · rw [hitems2]
        have hlen2 : (sanitizeItems rn n 0 (x :: rest)).length = n := by
          rw [sanitizeItems_length]
        rw [hlen2, sanitizeItems_idem]

theorem applyRulesSpec_no_match (rules : List (Matcher × GoString))
    (p : GoString) (h : ∀ mr ∈ rules, mr.1 p = false) :
    applyRulesSpec rules p = p := by
  induction rules with
  | nil => rfl
  | cons mr rest ih =>
    have h1 := h mr (List.mem_cons_self mr rest)
    simp only [applyRulesSpec, List.foldl_cons, h1, Bool.false_eq_true,
      if_false]
    exact ih fun mr2 h2 => h mr2 (List.mem_cons_of_mem mr h2)

theorem applyRules_no_match (compile : GoString → Option Matcher)
    (rules : List replacer) (p : GoString)
    (hall : ∀ r ∈ rules, r.regexpCompiled.isSome)
    (h : ∀ r ∈ rules, matcherOf r p = false) :
    applyRules compile rules p = some p := by
  rw [applyRules_eq_spec compile rules hall p]
  rw [applyRulesSpec_no_match _ p ?_]
  intro mr hmr
  obtain ⟨r, hrmem, hreq⟩ := List.mem_map.mp hmr
  rw [← hreq]
  exact h r hrmem

theorem normalizePath_fixed_output (compile : GoString → Option Matcher)
    (rn : requestNormalizer) (q out : GoString)
    (hall : allCompiled rn)
    (hout : out = joinC '/' (sanitizeItems rn
      (splitC '/' (pathClean q)).length 0 (splitC '/' (pathClean q))))
    (hnomatch : ∀ r ∈ rn.replaceRules, matcherOf r out = false) :
    normalizePath compile rn out = some out := by
  obtain ⟨rooted, stack2, hOK, hsan, hsan2⟩ := sanitize_shape rn q
  have hout2 : out = renderPath rooted stack2 := by
    rw [hout, hsan, joinC_renderItems]
  have hne : out.isEmpty = false := by
    rw [hout2]
    exact renderPath_isEmpty_eq_false rooted stack2 hOK
  rw [normalizePath, hne]
  simp only [Bool.false_eq_true, if_false, pathItemsSeparator,
    applyRules_no_match compile rn.replaceRules out hall hnomatch]
  rw [hout2, pathClean_renderPath rooted stack2 hOK,
    splitC_renderPath rooted stack2 hOK.slashFree, hsan2,
    joinC_renderItems]

/-! ### the claims -/

/-- Claim C2: `normalizePath` is total — it maps the empty path to `/` and
returns a defined string on every input once all rewrite rules are
compiled (which `NewFromConfig` guarantees, see C10). -/
theorem claim_C2 (compile : GoString → Option Matcher)
    (rn : requestNormalizer) (h : allCompiled rn) :
    normalizePath compile rn [] = some (String.toList "/") ∧
    ∀ p : GoString, (normalizePath compile rn p).isSome := by
  refine ⟨by simp [normalizePath], fun p => normalizePath_isSome compile rn h p⟩

/-- Claim C2 witness: totality at a concrete normalizer and path. -/
theorem claim_C2_witness :
    normalizePath (fun _ => none)
        ⟨[], [], false, true, false, false, false, false⟩ [] =
      some (String.toList "/") ∧
    (normalizePath (fun _ => none)
        ⟨[], [], false, true, false, false, false, false⟩
        (String.toList "/users/42")).isSome := by
  have h := claim_C2 (fun _ => none)
    ⟨[], [], false, true, false, false, false, false⟩ (by decide)
  exact ⟨h.1, h.2 (String.toList "/users/42")⟩

/-- Claim C3: a compiled rewrite rule replaces the whole path by its
replacement string exactly when its pattern matches, and `normalizePath`
first runs all rules in configured order, each consuming the previous
rule's output (specification `applyRulesSpec`), before cleaning, splitting
and sanitizing the path. -/
theorem claim_C3 (compile : GoString → Option Matcher)
    (rn : requestNormalizer) (h : allCompiled rn) :
    (∀ (r : replacer) (m : Matcher), r.regexpCompiled = some m →
      ∀ path : GoString,
        r.process compile path =
          some (r, if m path then r.Replacement else path)) ∧
    (∀ p : GoString, ¬p.isEmpty →
      normalizePath compile rn p =
        some (joinC '/' (sanitizeItems rn
          (splitC '/' (pathClean (applyRulesSpec
            (rn.replaceRules.map fun r => (matcherOf r, r.Replacement)) p))).length
          0
          (splitC '/' (pathClean (applyRulesSpec
            (rn.replaceRules.map fun r => (matcherOf r, r.Replacement)) p)))))) := by
  constructor
  · exact fun r m hm path => process_of_compiled compile r m hm path
  · intro p hp
    simp only [normalizePath, hp, if_false, Bool.false_eq_true,
      applyRules_eq_spec compile rn.replaceRules h p, pathItemsSeparator]

/-- Claim C3 witness: a matching rule rewrites the whole path before
sanitization — with a rule sending any path containing `users` to
`/legacy`, the path `/users/42` normalizes to `/legacy`, not `/users/0`. -/
theorem claim_C3_witness :
    (replacer.process (fun _ => none)
        ⟨some (fun s => decide (String.toList "users" <:+: s)),
          String.toList "users", String.toList "/legacy"⟩
        (String.toList "/users/42") =
      some (⟨some (fun s => decide (String.toList "users" <:+: s)),
          String.toList "users", String.toList "/legacy"⟩,
        String.toList "/legacy")) ∧
    normalizePath (fun _ => none)
        ⟨[], [⟨some (fun s => decide (String.toList "users" <:+: s)),
          String.toList "users", String.toList "/legacy"⟩],
          false, true, false, false, false, false⟩
        (String.toList "/users/42") = some (String.toList "/legacy") := by
  have h := claim_C3 (fun _ => none)
    ⟨[], [⟨some (fun s => decide (String.toList "users" <:+: s)),
      String.toList "users", String.toList "/legacy"⟩],
      false, true, false, false, false, false⟩
    (by intro r hr; rw [List.mem_singleton.mp hr]; rfl)
  constructor
  · rw [h.1 _ (fun s => decide (String.toList "users" <:+: s)) rfl
      (String.toList "/users/42")]
    rfl
  · rw [h.2 (String.toList "/users/42") (by decide)]
    rfl

/-- Claim C4: the per-segment heuristics are tested in the fixed priority
order hashes, numbers, uuids, ips, then (last segment only, see C5)
images and fonts, each gated by its own toggle; the first matching
heuristic's placeholder replaces the segment, a hash match taking
precedence over a number match; empty segments are never replaced. -/
theorem claim_C4 (rn : requestNormalizer) (item : GoString) (isLast : Bool) :
    (sanitizeItem rn [] isLast = []) ∧
    (item.isEmpty = false →
      ((rn.sanitizeHashes && (IsMD5 item || IsSHA1 item || IsSHA256 item)) = true →
        sanitizeItem rn item isLast = hashPlaceholder) ∧
      ((rn.sanitizeHashes && (IsMD5 item || IsSHA1 item || IsSHA256 item)) = false →
        (rn.sanitizeNumbers && (IsNumeric item || IsHexadecimal item)) = true →
        sanitizeItem rn item isLast = numberPlaceholder) ∧
      ((rn.sanitizeHashes && (IsMD5 item || IsSHA1 item || IsSHA256 item)) = false →
        (rn.sanitizeNumbers && (IsNumeric item || IsHexadecimal item)) = false →
        (rn.sanitizeUids && (IsUUID item || IsUUIDv4 item)) = true →
        sanitizeItem rn item isLast = uuidPlaceholder) ∧
      ((rn.sanitizeHashes && (IsMD5 item || IsSHA1 item || IsSHA256 item)) = false →
        (rn.sanitizeNumbers && (IsNumeric item || IsHexadecimal item)) = false →
        (rn.sanitizeUids && (IsUUID item || IsUUIDv4 item)) = false →
        (rn.sanitizeIps && IsIP item) = true →
        sanitizeItem rn item isLast = ipPlaceholder)) := by
  refine ⟨by simp [sanitizeItem], fun hne => ⟨?_, ?_, ?_, ?_⟩⟩
  · intro h1; simp [sanitizeItem, hne, h1]
  · intro h1 h2; simp [sanitizeItem, hne, h1, h2]
  · intro h1 h2 h3; simp [sanitizeItem, hne, h1, h2, h3]
  · intro h1 h2 h3 h4; simp [sanitizeItem, hne, h1, h2, h3, h4]

/-- Claim C4 witness: with both the hashes and the numbers toggles
enabled, a valid 32-hex-character MD5 digest segment becomes `:hash`, not
`0`, and an empty segment stays empty. -/
theorem claim_C4_witness :
    sanitizeItem ⟨[], [], true, true, false, false, false, false⟩
        (String.toList "d41d8cd98f00b204e9800998ecf8427e") false =
      hashPlaceholder ∧
    sanitizeItem ⟨[], [], true, true, false, false, false, false⟩ [] false = [] := by
  have h := claim_C4 ⟨[], [], true, true, false, false, false, false⟩
    (String.toList "d41d8cd98f00b204e9800998ecf8427e") false
  exact ⟨(h.2 (by decide)).1 (by decide), h.1⟩

/-- Claim C5: the image and font heuristics are tested only on the last
path segment — on non-final segments the sanitizer behaves exactly as if
both toggles were off, and a non-final segment matched by no other
heuristic is left unchanged — while a final segment ending with an image
extension becomes `:image` and one ending with `ttf`/`woff` becomes
`:font` when the respective toggle is enabled; concretely,
`/images.png/detail` is left whole and `/detail/images.png` becomes
`/detail/:image` under `sanitizeImages`. -/
theorem claim_C5 :
    (∀ (rn : requestNormalizer) (item : GoString),
      sanitizeItem rn item false =
        sanitizeItem
          { rn with sanitizeImages := false, sanitizeFonts := false }
          item false) ∧
    (∀ (rn : requestNormalizer) (item : GoString),
      item.isEmpty = false →
      (rn.sanitizeHashes && (IsMD5 item || IsSHA1 item || IsSHA256 item)) = false →
      (rn.sanitizeNumbers && (IsNumeric item || IsHexadecimal item)) = false →
      (rn.sanitizeUids && (IsUUID item || IsUUIDv4 item)) = false →
      (rn.sanitizeIps && IsIP item) = false →
      (rn.sanitizeImages = true → imageExtensionMatch item = true →
        sanitizeItem rn item true = imagePlaceholder) ∧
      ((rn.sanitizeImages && imageExtensionMatch item) = false →
        rn.sanitizeFonts = true → fontExtensionMatch item = true →
        sanitizeItem rn item true = fontPlaceholder) ∧
      sanitizeItem rn item false = item) ∧
    normalizePath (fun _ => none)
        ⟨[], [], false, false, false, false, true, false⟩
        (String.toList "/images.png/detail") =
      some (String.toList "/images.png/detail") ∧
    normalizePath (fun _ => none)
        ⟨[], [], false, false, false, false, true, false⟩
        (String.toList "/detail/images.png") =
      some (String.toList "/detail/:image") := by
  refine ⟨fun rn item => ?_, fun rn item hne h1 h2 h3 h4 => ⟨?_, ?_, ?_⟩,
    by decide, by decide⟩
  · simp only [sanitizeItem]
    split <;> rfl
  · intro h5 h6; simp [sanitizeItem, hne, h1, h2, h3, h4, h5, h6]
  · intro h5 h6 h7; simp [sanitizeItem, hne, h1, h2, h3, h4, h5, h6, h7]
  · simp [sanitizeItem, hne, h1, h2, h3, h4]

/-- Claim C5 witness: with every toggle enabled, `images.png` is kept
unchanged as a non-final segment and replaced by `:image` as the final
segment. -/
theorem claim_C5_witness :
    sanitizeItem ⟨[], [], true, true, true, true, true, true⟩
        (String.toList "images.png") false = String.toList "images.png" ∧
    sanitizeItem ⟨[], [], true, true, true, true, true, true⟩
        (String.toList "images.png") true = imagePlaceholder := by
  have h := claim_C5.2.1 ⟨[], [], true, true, true, true, true, true⟩
    (String.toList "images.png") (by decide) (by decide) (by decide)
    (by decide) (by decide)
  exact ⟨h.2.2, h.1 rfl (by decide)⟩

/-- Claim C6: the event key is the `:`-join of the method, the sanitized
path, and — when the configured query parameter name is non-empty — the
values bound to that name in query-string order (no deduplication, no
sorting, nothing when the name is absent); in particular `GET /users/42`
with query `op=list&op=summary`, parameter name `op` and the numbers
toggle yields `GET:/users/0:list:summary`. -/
theorem claim_C6 :
    (∀ (compile : GoString → Option Matcher) (rn : requestNormalizer)
      (e : HttpRequest),
      getNormalizedEventKey compile rn e =
        (normalizePath compile rn e.URL.Path).map (fun normalized =>
          joinC ':' ([e.Method, normalized] ++
            (if rn.getParamWithEventIdentifier.isEmpty then []
             else (e.URL.Query.filter
                 (fun kv => kv.1 == rn.getParamWithEventIdentifier)).map
               (fun kv => kv.2))))) ∧
    getNormalizedEventKey (fun _ => none)
        ⟨String.toList "op", [], false, true, false, false, false, false⟩
        ⟨String.toList "GET",
          ⟨String.toList "/users/42",
            [(String.toList "op", String.toList "list"),
             (String.toList "op", String.toList "summary")]⟩, []⟩ =
      some (String.toList "GET:/users/0:list:summary") := by
  constructor
  · intro compile rn e
    rcases hnp : normalizePath compile rn e.URL.Path with _ | normalized
    · simp [getNormalizedEventKey, hnp]
    · simp only [getNormalizedEventKey, hnp, Option.map_some]
      by_cases hparam : rn.getParamWithEventIdentifier.isEmpty
      · simp [hparam, eventKeyFieldSeparator]
      · simp only [hparam, Bool.not_false, if_neg,
          Bool.false_eq_true, ite_false, if_false]
        rcases hq : e.URL.queryGet rn.getParamWithEventIdentifier with _ | vals
        · have : ((e.URL.Query.filter
              (fun kv => kv.1 == rn.getParamWithEventIdentifier)).map
                (fun kv => kv.2)) = [] := by
            simp only [URL.queryGet] at hq
            by_cases hv : ((e.URL.Query.filter
                (fun kv => kv.1 == rn.getParamWithEventIdentifier)).map
                  (fun kv => kv.2)).isEmpty
            · exact List.isEmpty_iff.mp hv
            · rw [if_neg (by simpa using hv)] at hq; cases hq
          simp [hq, this, eventKeyFieldSeparator]
        · have : ((e.URL.Query.filter
              (fun kv => kv.1 == rn.getParamWithEventIdentifier)).map
                (fun kv => kv.2)) = vals := by
            simp only [URL.queryGet] at hq
            by_cases hv : ((e.URL.Query.filter
                (fun kv => kv.1 == rn.getParamWithEventIdentifier)).map
                  (fun kv => kv.2)).isEmpty
            · rw [if_pos (by simpa using hv)] at hq; cases hq
            · rw [if_neg (by simpa using hv)] at hq
              cases hq; rfl
          simp [hq, this, eventKeyFieldSeparator]
  · decide

/-- Claim C7: an event whose `EventKey` is already non-empty is forwarded
completely unchanged, for every configuration and every path. -/
theorem claim_C7 (compile : GoString → Option Matcher)
    (rn : requestNormalizer) (e : HttpRequest) (h : e.EventKey ≠ []) :
    runOnce compile rn e = some e := by
  have : e.EventKey.isEmpty = false := by
    cases hk : e.EventKey with
    | nil => exact absurd rfl (hk ▸ h)
    | cons c rest => rfl
  simp [runOnce, this]

/-- Claim C7 witness: an event with key `preset` keeps it. -/
theorem claim_C7_witness :
    runOnce (fun _ => none)
        ⟨[], [], true, true, true, true, true, true⟩
        ⟨String.toList "GET",
          ⟨String.toList "/users/42", []⟩, String.toList "preset"⟩ =
      some ⟨String.toList "GET",
        ⟨String.toList "/users/42", []⟩, String.toList "preset"⟩ :=
  claim_C7 (fun _ => none) ⟨[], [], true, true, true, true, true, true⟩
    ⟨String.toList "GET", ⟨String.toList "/users/42", []⟩,
      String.toList "preset"⟩ (by decide)

/-- Claim C8: construction fails with an error exactly when some rewrite
rule's pattern does not compile; when every pattern compiles, a normalizer
is returned. -/
theorem claim_C8 (compile : GoString → Option Matcher)
    (config : requestNormalizerConfig) :
    ((∃ r ∈ config.ReplaceRules, compile r.Regexp = none) →
      ∃ msg, NewFromConfig compile config = .error msg) ∧
    ((∀ r ∈ config.ReplaceRules, (compile r.Regexp).isSome) →
      ∃ rn, NewFromConfig compile config = .ok rn) := by
  constructor
  · rintro ⟨r, hr, hcompile⟩
    rcases hpre : precompileRegexps compile config.ReplaceRules with e | out
    · exact ⟨e, by simp [NewFromConfig, hpre]⟩
    · exfalso
      have hall := (precompileRegexps_ok_iff compile config.ReplaceRules).mp
        ⟨out, hpre⟩
      have := hall r hr
      rw [hcompile] at this
      cases this
  · intro hall
    obtain ⟨out, hpre⟩ :=
      (precompileRegexps_ok_iff compile config.ReplaceRules).mpr hall
    exact ⟨{ getParamWithEventIdentifier := config.GetParamWithEventIdentifier,
             replaceRules := out, sanitizeHashes := config.SanitizeHashes,
             sanitizeNumbers := config.SanitizeNumbers,
             sanitizeUids := config.SanitizeUids,
             sanitizeIps := config.SanitizeIps,
             sanitizeImages := config.SanitizeImages,
             sanitizeFonts := config.SanitizeFonts },
           by simp [NewFromConfig, hpre]⟩

/-- Claim C8 witness: with a compiler failing on pattern `(` only, a
config holding a `(` rule is rejected and a config holding a good rule is
accepted. -/
theorem claim_C8_witness :
    (∃ msg, NewFromConfig
        (fun s => if s = String.toList "(" then none else some (fun _ => false))
        ⟨[], [⟨none, String.toList "(", String.toList "/x"⟩],
          false, false, false, false, false, false⟩ = .error msg) ∧
    (∃ rn, NewFromConfig
        (fun s => if s = String.toList "(" then none else some (fun _ => false))
        ⟨[], [⟨none, String.toList "users", String.toList "/x"⟩],
          false, false, false, false, false, false⟩ = .ok rn) := by
  constructor
  · exact (claim_C8 _ _).1
      ⟨⟨none, String.toList "(", String.toList "/x"⟩,
        List.mem_cons_self _ _, rfl⟩
  · exact (claim_C8 _ _).2 (by decide)

/-- Claim C9: with all rules compiled, every finite input sequence of N
events yields exactly N output events, pairwise related in order — event i
of the output is the processed event i of the input (no loss, duplication
or reordering); the output sequence ends when the input does. -/
theorem claim_C9 (compile : GoString → Option Matcher)
    (rn : requestNormalizer) (h : allCompiled rn)
    (inputs : List HttpRequest) :
    ∃ outputs, Run compile rn inputs = some outputs ∧
      outputs.length = inputs.length ∧
      List.Forall₂ (fun i o => runOnce compile rn i = some o) inputs outputs := by
  induction inputs with
  | nil => exact ⟨[], rfl, rfl, List.Forall₂.nil⟩
  | cons e rest ih =>
    obtain ⟨outs, hruns, hlen, hrel⟩ := ih
    obtain ⟨e2, he2⟩ := Option.isSome_iff_exists.mp
      (runOnce_isSome compile rn h e)
    refine ⟨e2 :: outs, ?_, by simp [hlen], List.Forall₂.cons he2 hrel⟩
    simp [Run, he2, hruns]

/-- Claim C9 witness: a concrete two-event stream produces exactly two
events in order. -/
theorem claim_C9_witness :
    ∃ outputs,
      Run (fun _ => none) ⟨[], [], false, true, false, false, false, false⟩
        [⟨String.toList "GET", ⟨String.toList "/users/42", []⟩, []⟩,
         ⟨String.toList "POST", ⟨String.toList "/a", []⟩,
           String.toList "preset"⟩] = some outputs ∧
      outputs.length = 2 ∧
      List.Forall₂
        (fun i o => runOnce (fun _ => none)
          ⟨[], [], false, true, false, false, false, false⟩ i = some o)
        [⟨String.toList "GET", ⟨String.toList "/users/42", []⟩, []⟩,
         ⟨String.toList "POST", ⟨String.toList "/a", []⟩,
           String.toList "preset"⟩] outputs :=
  claim_C9 (fun _ => none) ⟨[], [], false, true, false, false, false, false⟩
    (by decide)
    [⟨String.toList "GET", ⟨String.toList "/users/42", []⟩, []⟩,
     ⟨String.toList "POST", ⟨String.toList "/a", []⟩, String.toList "preset"⟩]

/-- Claim C10: after a successful `NewFromConfig`, every rule carries a
compiled pattern, `process` never takes the lazy `MustCompile` branch —
it returns its receiver unchanged together with a result, for every path —
and `normalizePath` never fails. -/
theorem claim_C10 (compile : GoString → Option Matcher)
    (config : requestNormalizerConfig) (rn : requestNormalizer)
    (h : NewFromConfig compile config = .ok rn) :
    (∀ r ∈ rn.replaceRules, r.regexpCompiled.isSome) ∧
    (∀ r ∈ rn.replaceRules, ∀ path : GoString,
      ∃ res, r.process compile path = some (r, res)) ∧
    (∀ p : GoString, (normalizePath compile rn p).isSome) := by
  have hall : ∀ r ∈ rn.replaceRules, r.regexpCompiled.isSome := by
    simp only [NewFromConfig] at h
    rcases hpre : precompileRegexps compile config.ReplaceRules with e | out
    · rw [hpre] at h; cases h
    · rw [hpre] at h
      cases h
      exact precompileRegexps_ok compile config.ReplaceRules out hpre
  refine ⟨hall, fun r hr path => ?_, normalizePath_isSome compile rn hall⟩
  obtain ⟨m, hm⟩ := Option.isSome_iff_exists.mp (hall r hr)
  exact ⟨_, process_of_compiled compile r m hm path⟩

/-- Claim C10 witness: a concretely constructed normalizer has compiled
rules, a non-mutating `process`, and a total `normalizePath`. -/
theorem claim_C10_witness :
    (∀ r ∈ (requestNormalizer.mk []
        [⟨some (fun _ => false), String.toList "users", String.toList "/x"⟩]
        false true false false false false).replaceRules,
      r.regexpCompiled.isSome) ∧
    (∀ r ∈ (requestNormalizer.mk []
        [⟨some (fun _ => false), String.toList "users", String.toList "/x"⟩]
        false true false false false false).replaceRules,
      ∀ path : GoString,
        ∃ res, r.process (fun _ => some (fun _ => false)) path = some (r, res)) ∧
    (∀ p : GoString,
      (normalizePath (fun _ => some (fun _ => false))
        (requestNormalizer.mk []
          [⟨some (fun _ => false), String.toList "users", String.toList "/x"⟩]
          false true false false false false) p).isSome) := by
  have h := claim_C10 (fun _ => some (fun _ => false))
    ⟨[], [⟨none, String.toList "users", String.toList "/x"⟩],
      false, true, false, false, false, false⟩
    (requestNormalizer.mk []
      [⟨some (fun _ => false), String.toList "users", String.toList "/x"⟩]
      false true false false false false)
    (by rfl)
  exact h

/-- Claim C1 (amended): sanitization is idempotent for every combination of
the six sanitizer toggles provided no rewrite rule's pattern matches the
sanitized output `normalizePath p` — the original side condition (no
rule's replacement matched by any rule's pattern) is not sufficient, see
the counterexample. -/
theorem claim_C1 (compile : GoString → Option Matcher)
    (rn : requestNormalizer) (p out : GoString) (hall : allCompiled rn)
    (hout : normalizePath compile rn p = some out)
    (hnomatch : ∀ r ∈ rn.replaceRules, matcherOf r out = false) :
    normalizePath compile rn out = some out := by
  by_cases hp : p.isEmpty
  · rw [normalizePath, hp] at hout
    simp only [if_true] at hout
    have hout1 : out = String.toList "/" := by
      cases hout; rfl
    refine normalizePath_fixed_output compile rn ['/'] out hall ?_ hnomatch
    have hclean : pathClean ['/'] = ['/'] := by decide
    have hsplit : splitC '/' ['/'] = [[], []] := by decide
    rw [hclean, hsplit, hout1]
    simp [sanitizeItems, sanitizeItem_nil, joinC]
  · rw [normalizePath, if_neg hp] at hout
    rcases happ : applyRules compile rn.replaceRules p with _ | q
    · rw [happ] at hout; cases hout
    · rw [happ] at hout
      simp only [Option.some_inj] at hout
      exact normalizePath_fixed_output compile rn q out hall hout.symm hnomatch

/-- Claim C1 counterexample: the claim as stated is false.  Take the
single rewrite rule with pattern `0$` (compiled: matches iff the path ends
in `0`) and replacement `/z`, with the numbers toggle on.  No rule's
replacement is matched by any rule's pattern (`/z` does not end in `0`),
yet `normalizePath "/7" = "/0"` while `normalizePath "/0" = "/z"`:
applying normalization twice to `/7` gives `/z`, not `/0` — the sanitized
output `/0` matches the pattern even though no replacement does. -/
theorem claim_C1_counterexample :
    matcherOf ⟨some (fun s => s.getLast? == some '0'), String.toList "0$",
        String.toList "/z"⟩ (String.toList "/z") = false ∧
    normalizePath (fun _ => none)
        ⟨[], [⟨some (fun s => s.getLast? == some '0'), String.toList "0$",
          String.toList "/z"⟩], false, true, false, false, false, false⟩
        (String.toList "/7") = some (String.toList "/0") ∧
    normalizePath (fun _ => none)
        ⟨[], [⟨some (fun s => s.getLast? == some '0'), String.toList "0$",
          String.toList "/z"⟩], false, true, false, false, false, false⟩
        (String.toList "/0") = some (String.toList "/z") ∧
    String.toList "/0" ≠ String.toList "/z" := by
  refine ⟨rfl, by decide, by decide, by decide⟩

/-- Claim C1 witness: with the numbers toggle and no rewrite rules,
`/users/42` sanitizes to `/users/0`, and sanitizing that output again
leaves it unchanged. -/
theorem claim_C1_witness :
    normalizePath (fun _ => none)
        ⟨[], [], false, true, false, false, false, false⟩
        (String.toList "/users/42") = some (String.toList "/users/0") ∧
    normalizePath (fun _ => none)
        ⟨[], [], false, true, false, false, false, false⟩
        (String.toList "/users/0") = some (String.toList "/users/0") := by
  refine ⟨by decide, ?_⟩
  exact claim_C1 (fun _ => none)
    ⟨[], [], false, true, false, false, false, false⟩
    (String.toList "/users/42") (String.toList "/users/0")
    (by decide) (by decide) (by simp)

end SloExporter
